import Mathlib

/-!
Verification of the video-frame compositor of `sleeping_beauty_slop`
(`video_assembly.py`, `video_api.py`), shallowly embedded in Lean 4.

Conventions of the embedding:
* Python floats are modelled as exact rationals (`ℚ`);
* Python strings are modelled as `List Char`;
* Python `a // b` (float floor division) is `⌊a / b⌋` and `a % b` for a
  positive divisor `b` is `a - b * ⌊a / b⌋`;
* fallible code returns `Except String`;
* the PIL font-metric oracle (`draw.textbbox`) is an abstract parameter
  `measure : List Char → ℕ` giving the pixel width of a rendered string.
-/

namespace SleepingBeauty

/-- Data class `TimingSegment` from `video_assembly.py` (lines 12-17): a timed caption.
`end` is a Lean keyword, so that field is named `stop`. -/
structure TimingSegment where
  start : ℚ
  stop : ℚ
  text : List Char
deriving Repr, DecidableEq

/-! `VideoAssembler.__init__` constants (`video_assembly.py`, lines 23-27). -/

def width : ℕ := 1080

def height : ℕ := 1920

def fps : ℕ := 30

/-- Crossfade duration in seconds. -/
def transition_duration : ℚ := 1/2

/-- Python float `%` for a positive divisor: `a % b = a - b * ⌊a / b⌋`. -/
def pymod (a b : ℚ) : ℚ := a - b * ⌊a / b⌋

/-- Embedding of `VideoAssembler._get_current_images` (`video_assembly.py`, lines 125-152),
with the image list replaced by image indices: given the number of loaded
images, the current time and the segment duration, returns
`(base image index, overlay image index if in a transition, blend factor)`.
`int(current_time // segment_duration)` is `⌊current_time / segment_duration⌋`,
clamped with `min` to the last index. -/
def get_current_images (numImages : ℕ) (current_time segment_duration : ℚ) :
    ℤ × Option ℤ × ℚ :=
  let segment_idx : ℤ := min ⌊current_time / segment_duration⌋ ((numImages : ℤ) - 1)
  let time_in_segment : ℚ := pymod current_time segment_duration
  if segment_idx < (numImages : ℤ) - 1 ∧
      time_in_segment ≥ segment_duration - transition_duration then
    (segment_idx, some (segment_idx + 1),
      (time_in_segment - (segment_duration - transition_duration)) / transition_duration)
  else
    (segment_idx, none, 0)

/-- The caption-selection test of `_add_text_overlay` (`video_assembly.py`,
line 165): `segment.start <= current_time <= segment.end`. -/
def segment_active (current_time : ℚ) (segment : TimingSegment) : Bool :=
  decide (segment.start ≤ current_time ∧ current_time ≤ segment.stop)

/-- The linear scan of `_add_text_overlay` (lines 162-167): the first segment
in list order whose span contains `current_time`, or `none`. -/
def find_current_segment (segments : List TimingSegment) (current_time : ℚ) :
    Option TimingSegment :=
  segments.find? (segment_active current_time)

/-- The fade computation of `_add_text_overlay` (lines 172-184), as the
opacity fraction: `segment_progress = (t - start) / (end - start)`,
`fade_duration = 0.1`; the code scales this fraction by 255 and truncates to
an `int` before passing it to `_draw_text_with_outline`
(see `fade_alpha255`). -/
def fade_envelope (segment : TimingSegment) (current_time : ℚ) : ℚ :=
  let segment_progress :=
    (current_time - segment.start) / (segment.stop - segment.start)
  let fade_duration : ℚ := 1/10
  if segment_progress < fade_duration then
    segment_progress / fade_duration
  else if segment_progress > 1 - fade_duration then
    1 - (segment_progress - (1 - fade_duration)) / fade_duration
  else 1

/-- The 0-255 integer alpha actually passed to the text drawer:
`int(... * 255)`.  Python `int()` truncates toward zero; on the reachable
inputs (an active segment with `start < end`) the envelope is nonnegative,
where truncation agrees with the floor used here. -/
def fade_alpha255 (segment : TimingSegment) (current_time : ℚ) : ℤ :=
  ⌊fade_envelope segment current_time * 255⌋

/-- The fade envelope exactly as §4.3 of the spec words it, as a function of
the progress fraction `p` (for the refinement comparison with
`fade_envelope`): `p/0.1` below `p = 0.1`, `(1-p)/0.1` above `p = 0.9`,
else `1`. -/
def spec_fade_envelope (p : ℚ) : ℚ :=
  if p < 1/10 then p / (1/10) else if p > 9/10 then (1 - p) / (1/10) else 1

/-- Python `str.split()` with no separator: split on runs of whitespace,
discarding empty pieces.  `acc` holds the characters of the word currently
being read, in reverse. -/
def py_split_aux : List Char → List Char → List (List Char)
  | [], acc => if acc = [] then [] else [acc.reverse]
  | c :: cs, acc =>
    if c.isWhitespace then
      if acc = [] then py_split_aux cs []
      else acc.reverse :: py_split_aux cs []
    else py_split_aux cs (c :: acc)

/-- Python `text.split()` from `_wrap_text` (line 285). -/
def py_split (text : List Char) : List (List Char) := py_split_aux text []

/-- Python `" ".join(words)`: the pieces separated by single spaces. -/
def join_words : List (List Char) → List Char
  | [] => []
  | [w] => w
  | w :: ws => w ++ ' ' :: join_words ws

/-- The loop of `_wrap_text` (lines 289-307): `cur` is `current_line` (a list
of words); a line is emitted as a word group.  The fit test measures
`" ".join(test_line)` with the font-metric oracle `measure`, exactly as the
source measures `test_text` via `textbbox`. -/
def wrap_text_aux (measure : List Char → ℕ) (max_width : ℕ) :
    List (List Char) → List (List Char) → List (List (List Char))
  | [], cur => if cur = [] then [] else [cur]
  | w :: ws, cur =>
    if measure (join_words (cur ++ [w])) ≤ max_width then
      wrap_text_aux measure max_width ws (cur ++ [w])
    else if cur = [] then
      wrap_text_aux measure max_width ws [w]
    else
      cur :: wrap_text_aux measure max_width ws [w]

/-- Embedding of `VideoAssembler._wrap_text` (lines 283-309): greedy word wrap of `text`
at `max_width`; returns the wrapped lines (each `" ".join` of its word
group). -/
def wrap_text (measure : List Char → ℕ) (text : List Char) (max_width : ℕ) :
    List (List Char) :=
  (wrap_text_aux measure max_width (py_split text) []).map join_words

/-- Source `initial_font_size = max(int(self.height * 0.05), 20)` (line 253). -/
def initial_font_size : ℕ := max (⌊(height : ℚ) * (5/100)⌋).toNat 20

/-- Source `min_font_size = max(int(initial_font_size * 0.4), 12)` (line 254). -/
def min_font_size : ℕ := max (⌊(initial_font_size : ℚ) * (4/10)⌋).toNat 12

/-- Python `range(hi, lo - 1, -1)`: the list `[hi, hi-1, ..., lo]`
(empty when `hi < lo`). -/
def desc_range (hi lo : ℕ) : List ℕ := (List.range' lo (hi + 1 - lo)).reverse

/-- The `for font_size in range(...)` loop of `_calculate_font_and_wrap_text`
(lines 256-270): try each size in order, returning the first whose wrapped
text fits `max_height`, or `none` when the loop falls through.  The font
resolved for a size is abstracted into the size-indexed metric oracle
`measure`. -/
def calc_font_loop (measure : ℕ → List Char → ℕ) (text : List Char)
    (max_width max_height : ℕ) : List ℕ → Option (List (List Char) × ℕ)
  | [] => none
  | s :: rest =>
    let wrapped := wrap_text (measure s) text max_width
    if wrapped.length * (s + 10) ≤ max_height then some (wrapped, s)
    else calc_font_loop measure text max_width max_height rest

/-- Embedding of `VideoAssembler._calculate_font_and_wrap_text` (lines 245-281). -/
def calculate_font_and_wrap_text (measure : ℕ → List Char → ℕ)
    (text : List Char) (max_width max_height : ℕ) :
    List (List Char) × ℕ :=
  match calc_font_loop measure text max_width max_height
      (desc_range initial_font_size min_font_size) with
  | some r => r
  | none => (wrap_text (measure min_font_size) text max_width, min_font_size)

/-- One PIL `draw.text` call: position, drawn string, RGBA fill. -/
structure DrawOp where
  x : ℤ
  y : ℤ
  line : List Char
  fill : ℕ × ℕ × ℕ × ℤ
deriving Repr, DecidableEq

/-- A frame's drawable state: the claims only concern which text-draw
operations were applied to which image object, so a frame is the list of
draw operations applied to it. -/
abbrev Frame := List DrawOp

/-- The heap of live PIL image objects, indexed by object identity.
`ImageDraw.Draw(frame)` followed by `draw.text(...)` mutates the image at
its identity in place. -/
abbrev Heap := ℕ → Frame

/-- Source `y_start = int(self.height * 0.7)` (line 216). -/
def y_start : ℤ := ⌊(height : ℚ) * (7/10)⌋

/-- The outer-outline offsets (radius 3, line 233). -/
def outer_offsets : List (ℤ × ℤ) :=
  [(-3,-3), (-3,3), (3,-3), (3,3), (-3,0), (3,0), (0,-3), (0,3)]

/-- The inner-outline offsets (radius 2, line 237). -/
def inner_offsets : List (ℤ × ℤ) :=
  [(-2,-2), (-2,2), (2,-2), (2,2), (-2,0), (2,0), (0,-2), (0,2)]

/-- The `draw.text` calls issued for one wrapped line (lines 222-241):
8 outer-outline draws, 8 inner-outline draws, then the white fill text. -/
def line_ops (x y : ℤ) (line : List Char) (alpha : ℤ) : List DrawOp :=
  (outer_offsets.map fun a => ⟨x + a.1, y + a.2, line, (0, 0, 0, alpha)⟩) ++
  (inner_offsets.map fun a => ⟨x + a.1, y + a.2, line, (0, 0, 0, alpha)⟩) ++
  [⟨x, y, line, (255, 255, 255, alpha)⟩]

/-- Embedding of `VideoAssembler._draw_text_with_outline` (lines 189-243): draws directly
onto the image object `fid` (no copy is taken) and returns that same object.
`x = (width - text_width) // 2` is a Python floor division (`Int.fdiv`);
a line that is blank after `strip()` is skipped. -/
def draw_text_with_outline (measure : ℕ → List Char → ℕ) (heap : Heap)
    (fid : ℕ) (text : List Char) (alpha : ℤ) : Heap × ℕ :=
  let max_width := (⌊(width : ℚ) * (8/10)⌋).toNat
  let max_height := (⌊(height : ℚ) * (4/10)⌋).toNat
  let r := calculate_font_and_wrap_text measure text max_width max_height
  let font_size := r.2
  let ops := (r.1.enum.map fun p =>
    if (p.2.filter fun c => !c.isWhitespace).isEmpty then ([] : List DrawOp)
    else
      let text_width := measure font_size p.2
      let x := Int.fdiv ((width : ℤ) - text_width) 2
      let y := y_start + p.1 * ((font_size : ℤ) + 10)
      line_ops x y p.2 alpha).flatten
  (fun n => if n = fid then heap n ++ ops else heap n, fid)

/-- Embedding of `VideoAssembler._add_text_overlay` (lines 154-187): select the active
caption, compute its fade alpha, and draw; with no active caption the frame
is returned untouched. -/
def add_text_overlay (measure : ℕ → List Char → ℕ) (heap : Heap) (fid : ℕ)
    (segments : List TimingSegment) (current_time : ℚ) : Heap × ℕ :=
  match find_current_segment segments current_time with
  | none => (heap, fid)
  | some seg =>
      draw_text_with_outline measure heap fid seg.text
        (fade_alpha255 seg current_time)

/-- The observable events of one `create_video_with_timed_text` run. -/
inductive RenderEv where
  | generate_frames
  | combine
  | rmtree
  | warn
deriving Repr, DecidableEq

/-- Embedding of `VideoAssembler._cleanup_temp_files` (`video_assembly.py`, lines
344-350): attempt `shutil.rmtree`; a failure is caught inside the function
and only prints a warning — the function itself never raises.  Returns the
events it emits. -/
def cleanup_temp_files (rmtree_fails : Bool) : List RenderEv :=
  if rmtree_fails then [RenderEv.rmtree, RenderEv.warn] else [RenderEv.rmtree]

/-- Embedding of `VideoAssembler.create_video_with_timed_text` (lines 29-59): frame
generation then muxing inside `try`, `_cleanup_temp_files` in the `finally`
block.  The two fallible stages are abstracted by their outcomes
`genR`/`muxR` (an `error` is a raised Python exception); returns the event
trace and the overall outcome.  Per Python `try/finally`, the `finally`
block runs on every exit path, and since `_cleanup_temp_files` cannot raise
it never replaces the primary outcome. -/
def create_video_with_timed_text (genR muxR : Except String Unit)
    (rmtree_fails : Bool) : List RenderEv × Except String Unit :=
  match genR with
  | .error e =>
      (RenderEv.generate_frames :: cleanup_temp_files rmtree_fails, .error e)
  | .ok _ =>
    match muxR with
    | .error e =>
        (RenderEv.generate_frames :: RenderEv.combine ::
          cleanup_temp_files rmtree_fails, .error e)
    | .ok _ =>
        (RenderEv.generate_frames :: RenderEv.combine ::
          cleanup_temp_files rmtree_fails, .ok ())

/-- A raw timing dict as passed to `VideoGenerationAPI` (`video_api.py`):
a Python dict that may or may not carry the `start`, `end`, `text` keys
(`none` models an absent key). -/
structure RawSegment where
  start : Option ℚ
  stop : Option ℚ
  text : Option (List Char)
deriving Repr, DecidableEq

/-- The per-segment checks of `_validate_inputs` (`video_api.py`, lines
101-108): the keys `start`, `end`, `text` must be present (checked in that
order) and then `start >= end` is rejected. -/
def validate_segment (i : ℕ) (segment : RawSegment) : Except String Unit :=
  match segment.start with
  | none => .error ("Timing segment " ++ toString i ++ " missing required key: start")
  | some s =>
    match segment.stop with
    | none => .error ("Timing segment " ++ toString i ++ " missing required key: end")
    | some e =>
      match segment.text with
      | none => .error ("Timing segment " ++ toString i ++ " missing required key: text")
      | some _ =>
        if s ≥ e then
          .error ("Invalid timing in segment " ++ toString i ++ ": start >= end")
        else .ok ()

/-- The `for i, segment in enumerate(timing_data)` loop of
`_validate_inputs`: the first failing segment raises. -/
def validate_segments : ℕ → List RawSegment → Except String Unit
  | _, [] => .ok ()
  | i, seg :: rest =>
    match validate_segment i seg with
    | .error e => .error e
    | .ok _ => validate_segments (i + 1) rest

/-- Embedding of `VideoGenerationAPI._validate_inputs` (`video_api.py`, lines 82-108).
`os.path.exists` is the abstract resolvability oracle `resolvable`; each
check raises (returns `.error`) in source order. -/
def validate_inputs (resolvable : String → Bool) (images : List String)
    (audio : String) (timing_data : List RawSegment) : Except String Unit :=
  if images.length ≠ 3 then
    .error "Exactly 3 images are required (beginning, middle, end)"
  else
    match images.find? (fun p => !resolvable p) with
    | some p => .error ("Image not found: " ++ p)
    | none =>
      if !resolvable audio then .error ("Audio file not found: " ++ audio)
      else if timing_data.isEmpty then .error "Timing data cannot be empty"
      else validate_segments 0 timing_data

/-- Source `duration = max(seg["end"] for seg in timing_data) if timing_data else
10.0` (`video_api.py`, line 55).  A missing `end` key would raise a
`KeyError` in Python; after validation every `stop` is present, so the
`getD 0` default never supplies the value on reachable inputs. -/
def duration_from_timing : List RawSegment → ℚ
  | [] => 10
  | seg :: rest =>
      (rest.map fun s => s.stop.getD 0).foldl max (seg.stop.getD 0)

/-- The duration-derivation rule exactly as §3 of the spec words it, for the
refinement comparison with the code: "if unspecified it must be derived from
the audio asset's own duration or, failing that, from the maximum caption
`end`".  `audio_duration` is the audio asset's own duration when it is
known/derivable. -/
def spec_derived_duration (audio_duration : Option ℚ)
    (caption_ends : List ℚ) : ℚ :=
  match audio_duration with
  | some d => d
  | none => caption_ends.foldl max 0

/-- The dict returned by `create_video` — the fields the claims inspect
(`status`, `video_path`, `error`, `duration`). -/
structure CreateResult where
  status : String
  video_path : Option String
  error : Option String
  duration : Option ℚ
deriving Repr, DecidableEq

/-- Embedding of `VideoGenerationAPI.create_video` (`video_api.py`, lines 21-80), with
the render stage (`create_video_from_components`) abstracted as `render`, a
function of the computed duration returning the result path or raising.
The outer `Except` is a Python exception propagating to the caller (how
validation failures surface); a failure inside the `try` around the render
is caught and returned as the error dict with `video_path = None`. -/
def create_video (resolvable : String → Bool)
    (render : ℚ → Except String String) (images : List String)
    (audio : String) (timing_data : List RawSegment)
    (duration? : Option ℚ) : Except String CreateResult :=
  match validate_inputs resolvable images audio timing_data with
  | .error e => .error e
  | .ok _ =>
    let duration := duration?.getD (duration_from_timing timing_data)
    match render duration with
    | .ok result_path => .ok ⟨"success", some result_path, none, some duration⟩
    | .error e => .ok ⟨"error", none, some e, none⟩

/-- The remainder `pymod t sd` lies in `[0, sd)` for `sd > 0`. -/
theorem pymod_bounds (t sd : ℚ) (hsd : 0 < sd) : 0 ≤ pymod t sd ∧ pymod t sd < sd := by
  unfold pymod
  constructor
  · have h1 : (⌊t / sd⌋ : ℚ) ≤ t / sd := Int.floor_le (t / sd)
    have h2 : sd * (⌊t / sd⌋ : ℚ) ≤ sd * (t / sd) :=
      mul_le_mul_of_nonneg_left h1 hsd.le
    have h3 : sd * (t / sd) = t := by
      field_simp
    linarith
  · have h1 : t / sd < (⌊t / sd⌋ : ℚ) + 1 := Int.lt_floor_add_one (t / sd)
    have h2 : sd * (t / sd) < sd * ((⌊t / sd⌋ : ℚ) + 1) :=
      (mul_lt_mul_left hsd).2 h1
    have h3 : sd * (t / sd) = t := by
      field_simp
    nlinarith

/-- C1: for any `duration > 0`, `imageCount = 3` and `0 ≤ t < duration` with
`sd = duration / 3` the window length, `_get_current_images` returns the base
segment index `min ⌊t / sd⌋ 2` (the floor clamped to at most 2), which lies in
`[0, 2]`; within the last `transition_duration = 0.5` seconds of a non-final
segment it returns the next index as overlay with blend factor
`(timeInSegment - (sd - transitionWindow)) / transitionWindow`, otherwise it
returns no overlay and blend factor `0`; and the blend factor always lies in
`[0, 1]`. -/
theorem timeline_planner_correct
    (duration t : ℚ) (hd : 0 < duration) (h0 : 0 ≤ t) (ht : t < duration) :
    (get_current_images 3 t (duration / 3)).1 = min ⌊t / (duration / 3)⌋ 2 ∧
    0 ≤ (get_current_images 3 t (duration / 3)).1 ∧
    (get_current_images 3 t (duration / 3)).1 ≤ 2 ∧
    ((get_current_images 3 t (duration / 3)).1 < 2 ∧
        pymod t (duration / 3) ≥ duration / 3 - transition_duration →
      (get_current_images 3 t (duration / 3)).2.1 =
        some ((get_current_images 3 t (duration / 3)).1 + 1) ∧
      (get_current_images 3 t (duration / 3)).2.2 =
        (pymod t (duration / 3) - (duration / 3 - transition_duration)) /
          transition_duration) ∧
    (¬ ((get_current_images 3 t (duration / 3)).1 < 2 ∧
        pymod t (duration / 3) ≥ duration / 3 - transition_duration) →
      (get_current_images 3 t (duration / 3)).2.1 = none ∧
      (get_current_images 3 t (duration / 3)).2.2 = 0) ∧
    0 ≤ (get_current_images 3 t (duration / 3)).2.2 ∧
    (get_current_images 3 t (duration / 3)).2.2 ≤ 1 := by
  have hsd : 0 < duration / 3 := by positivity
  set sd := duration / 3 with hsd_def
  have hfl0 : (0 : ℤ) ≤ ⌊t / sd⌋ := Int.floor_nonneg.2 (by positivity)
  have hfl2 : ⌊t / sd⌋ ≤ 2 := by
    have hq : t / sd < 3 := by
      rw [div_lt_iff₀ hsd, hsd_def]
      linarith
    have h3 : ⌊t / sd⌋ < 3 := Int.floor_lt.2 (by exact_mod_cast hq)
    omega
  have hpm := pymod_bounds t sd hsd
  have hcast : ((3 : ℕ) : ℤ) - 1 = 2 := by norm_num
  have hminval : ⌊t / sd⌋ ⊓ 2 = ⌊t / sd⌋ := min_eq_left hfl2
  unfold get_current_images
  simp only [hcast, hminval]
  split_ifs with hcond
  · dsimp only
    refine ⟨rfl, hfl0, hfl2, fun _ => ⟨rfl, rfl⟩, fun hn => absurd hcond hn, ?_, ?_⟩
    · have h2 := hcond.2
      rw [transition_duration] at h2 ⊢
      apply div_nonneg
      · linarith
      · norm_num
    · have h1 := hpm.2
      have h2 := hcond.2
      rw [transition_duration] at h2 ⊢
      rw [div_le_one (by norm_num : (0:ℚ) < 1/2)]
      linarith
  · dsimp only
    exact ⟨rfl, hfl0, hfl2, fun hc => absurd hc hcond, fun _ => ⟨rfl, rfl⟩,
      le_refl 0, by norm_num⟩

/-- Lemma: `List.find?` returns the first match: the hit is at some index `i`, the
predicate holds there, and it fails on every earlier element. -/
theorem find?_eq_some_first {α : Type} (p : α → Bool) (l : List α) (b : α)
    (h : l.find? p = some b) :
    p b = true ∧ ∃ i, ∃ hi : i < l.length, l.get ⟨i, hi⟩ = b ∧
      ∀ x ∈ l.take i, p x = false := by
  induction l with
  | nil => simp [List.find?] at h
  | cons a as ih =>
    by_cases hp : p a = true
    · rw [List.find?_cons_of_pos _ hp] at h
      obtain rfl : a = b := by injection h
      exact ⟨hp, 0, by simp, rfl, by simp⟩
    · rw [List.find?_cons_of_neg _ (by simpa using hp)] at h
      obtain ⟨hb, i, hi, hget, htake⟩ := ih h
      refine ⟨hb, i + 1, by simpa using Nat.succ_lt_succ hi, hget, ?_⟩
      intro x hx
      rcases List.mem_cons.1 (by simpa using hx) with rfl | hx'
      · simpa using hp
      · exact htake x hx'

/-- C2: for every caption list and instant `t`, `_add_text_overlay` selects
the first caption in list order with `start ≤ t ≤ end` (so at most one is
selected, `find?` returning at most one hit), and when no caption matches it
returns the input frame unchanged. -/
theorem caption_selection_correct (segments : List TimingSegment) (t : ℚ) :
    (find_current_segment segments t = none ↔
      ∀ s ∈ segments, ¬ (s.start ≤ t ∧ t ≤ s.stop)) ∧
    (∀ s, find_current_segment segments t = some s →
      (s.start ≤ t ∧ t ≤ s.stop) ∧
      ∃ i, ∃ hi : i < segments.length,
        segments.get ⟨i, hi⟩ = s ∧
        ∀ s' ∈ segments.take i, ¬ (s'.start ≤ t ∧ t ≤ s'.stop)) ∧
    (∀ measure heap fid, find_current_segment segments t = none →
      add_text_overlay measure heap fid segments t = (heap, fid)) := by
  refine ⟨?_, ?_, ?_⟩
  · rw [find_current_segment, List.find?_eq_none]
    constructor
    · intro h s hs
      simpa [segment_active] using h s hs
    · intro h s hs
      simpa [segment_active] using h s hs
  · intro s hfind
    obtain ⟨hb, i, hi, hget, htake⟩ := find?_eq_some_first _ _ _ hfind
    refine ⟨by simpa [segment_active] using hb, i, hi, hget, ?_⟩
    intro s' hs'
    simpa [segment_active] using htake s' hs'
  · intro measure heap fid hnone
    unfold add_text_overlay
    rw [hnone]

/-- C2 witness: at `t = 1` with captions `[{0,2,"Hello"}, {2,4,"World"}]` the
first caption is selected and its span contains `t`. -/
theorem caption_selection_correct_witness :
    find_current_segment
        [⟨0, 2, ['H','e','l','l','o']⟩, ⟨2, 4, ['W','o','r','l','d']⟩] 1 =
      some ⟨0, 2, ['H','e','l','l','o']⟩ ∧
    ((⟨0, 2, ['H','e','l','l','o']⟩ : TimingSegment).start ≤ (1 : ℚ) ∧
      (1 : ℚ) ≤ (⟨0, 2, ['H','e','l','l','o']⟩ : TimingSegment).stop) := by
  have hfind : find_current_segment
      [⟨0, 2, ['H','e','l','l','o']⟩, ⟨2, 4, ['W','o','r','l','d']⟩] 1 =
      some ⟨0, 2, ['H','e','l','l','o']⟩ := by
    rw [find_current_segment]
    rw [List.find?_cons_of_pos]
    rw [segment_active]
    norm_num
  exact ⟨hfind,
    ((caption_selection_correct
      [⟨0, 2, ['H','e','l','l','o']⟩, ⟨2, 4, ['W','o','r','l','d']⟩]
      1).2.1 _ hfind).1⟩

/-- The fade computation of the source equals the spec's envelope formula as
a function of the progress fraction, for every input. -/
theorem fade_envelope_eq_spec (seg : TimingSegment) (t : ℚ) :
    fade_envelope seg t =
      spec_fade_envelope ((t - seg.start) / (seg.stop - seg.start)) := by
  simp only [fade_envelope, spec_fade_envelope]
  set p := (t - seg.start) / (seg.stop - seg.start) with hp
  split_ifs with h1 h2 h3
  · rfl
  · field_simp
    ring
  · linarith
  · linarith
  · rfl

/-- Continuity of the fade envelope at the `p = 0.1` boundary. -/
theorem spec_fade_envelope_cont_tenth (ε : ℚ) (hε : 0 < ε) :
    ∃ δ : ℚ, 0 < δ ∧ ∀ p : ℚ, |p - 1/10| < δ →
      |spec_fade_envelope p - spec_fade_envelope (1/10)| < ε := by
  refine ⟨min (ε/10) (1/10), by positivity, ?_⟩
  intro p hp
  have hval : spec_fade_envelope (1/10) = 1 := by norm_num [spec_fade_envelope]
  rw [hval]
  have ha := abs_lt.1 (lt_of_lt_of_le hp (min_le_left _ _))
  have hb := abs_lt.1 (lt_of_lt_of_le hp (min_le_right _ _))
  rw [spec_fade_envelope]
  split_ifs with h1 h2
  · rw [abs_lt]
    constructor <;> · rw [div_div_eq_mul_div]; nlinarith [ha.1, ha.2]
  · linarith [hb.2]
  · simpa using hε

/-- Continuity of the fade envelope at the `p = 0.9` boundary. -/
theorem spec_fade_envelope_cont_ninetenth (ε : ℚ) (hε : 0 < ε) :
    ∃ δ : ℚ, 0 < δ ∧ ∀ p : ℚ, |p - 9/10| < δ →
      |spec_fade_envelope p - spec_fade_envelope (9/10)| < ε := by
  refine ⟨min (ε/10) (1/10), by positivity, ?_⟩
  intro p hp
  have hval : spec_fade_envelope (9/10) = 1 := by norm_num [spec_fade_envelope]
  rw [hval]
  have ha := abs_lt.1 (lt_of_lt_of_le hp (min_le_left _ _))
  have hb := abs_lt.1 (lt_of_lt_of_le hp (min_le_right _ _))
  rw [spec_fade_envelope]
  split_ifs with h1 h2
  · linarith [hb.1]
  · rw [abs_lt]
    constructor <;> · rw [div_div_eq_mul_div]; nlinarith [ha.1, ha.2]
  · simpa using hε

/-- C3: for a caption with `start < end` and `start ≤ t ≤ end`, the fade
fraction computed by `_add_text_overlay` equals the spec envelope
(`p/0.1` for `p < 0.1`, `(1-p)/0.1` for `p > 0.9`, else `1`); the envelope
is continuous at the `p = 0.1` and `p = 0.9` boundaries; and on the caption
`{0, 2, "Hello"}`, `t = 1.0` gives 1 and `t = 0.05` gives `0.25`. -/
theorem fade_alpha_correct :
    (∀ (seg : TimingSegment) (t : ℚ), seg.start < seg.stop →
        seg.start ≤ t → t ≤ seg.stop →
      fade_envelope seg t =
        spec_fade_envelope ((t - seg.start) / (seg.stop - seg.start))) ∧
    (∀ ε : ℚ, 0 < ε → ∃ δ : ℚ, 0 < δ ∧ ∀ p : ℚ, |p - 1/10| < δ →
      |spec_fade_envelope p - spec_fade_envelope (1/10)| < ε) ∧
    (∀ ε : ℚ, 0 < ε → ∃ δ : ℚ, 0 < δ ∧ ∀ p : ℚ, |p - 9/10| < δ →
      |spec_fade_envelope p - spec_fade_envelope (9/10)| < ε) ∧
    fade_envelope ⟨0, 2, ['H','e','l','l','o']⟩ 1 = 1 ∧
    fade_envelope ⟨0, 2, ['H','e','l','l','o']⟩ (1/20) = 1/4 := by
  refine ⟨fun seg t _ _ _ => fade_envelope_eq_spec seg t,
    spec_fade_envelope_cont_tenth, spec_fade_envelope_cont_ninetenth, ?_, ?_⟩
  · norm_num [fade_envelope]
  · norm_num [fade_envelope]

/-- C3 witness: the envelope equality instantiated on the caption
`{0, 2, "Hello"}` at `t = 1`, and continuity instantiated at `ε = 1`. -/
theorem fade_alpha_correct_witness :
    fade_envelope ⟨0, 2, ['H','e','l','l','o']⟩ 1 =
      spec_fade_envelope ((1 - 0) / (2 - 0)) ∧
    (∃ δ : ℚ, 0 < δ ∧ ∀ p : ℚ, |p - 1/10| < δ →
      |spec_fade_envelope p - spec_fade_envelope (1/10)| < 1) :=
  ⟨fade_alpha_correct.1 ⟨0, 2, ['H','e','l','l','o']⟩ 1 (by norm_num)
      (by norm_num) (by norm_num),
    fade_alpha_correct.2.1 1 (by norm_num)⟩

/-- The concrete initial size of the search: `max(int(1920 * 0.05), 20) = 96`. -/
theorem initial_font_size_eq : initial_font_size = 96 := by
  rw [initial_font_size, height]
  norm_num
  rfl

/-- The concrete minimum size of the search: `max(int(96 * 0.4), 12) = 38`. -/
theorem min_font_size_eq : min_font_size = 38 := by
  rw [min_font_size, initial_font_size_eq]
  norm_num
  rfl

/-- Membership in `desc_range hi lo` bounds the element by `lo` and `hi`. -/
theorem mem_desc_range {hi lo x : ℕ} (h : x ∈ desc_range hi lo) :
    lo ≤ x ∧ x ≤ hi := by
  rw [desc_range, List.mem_reverse] at h
  have := List.mem_range'_1.1 h
  omega

/-- The font-size loop is the first-fit search over its size list. -/
theorem calc_font_loop_eq_find (measure : ℕ → List Char → ℕ)
    (text : List Char) (max_width max_height : ℕ) (sizes : List ℕ) :
    calc_font_loop measure text max_width max_height sizes =
      (sizes.find? fun s =>
        decide ((wrap_text (measure s) text max_width).length * (s + 10) ≤
          max_height)).map
        fun s => (wrap_text (measure s) text max_width, s) := by
  induction sizes with
  | nil => rfl
  | cons s rest ih =>
    simp only [calc_font_loop]
    by_cases hs :
        (wrap_text (measure s) text max_width).length * (s + 10) ≤ max_height
    · rw [List.find?_cons_of_pos _ (by simpa using hs)]
      simp [hs]
    · rw [List.find?_cons_of_neg _ (by simpa using hs)]
      simp [hs, ih]

/-- C4: the font-size search scans `[initial_font_size, …, min_font_size]`
(96 down to 38 with the fixed 1080×1920 geometry), returns the first size
whose greedy-wrapped line count satisfies
`wrappedLineCount * (fontSize + 10) ≤ max_height` together with that
wrapping, falls back to the minimum size when no size fits, and the returned
size is always ≥ the configured minimum.  (The scan list is finite, so the
search — a total function here — terminates.) -/
theorem font_size_search_correct (measure : ℕ → List Char → ℕ)
    (text : List Char) (max_width max_height : ℕ) :
    initial_font_size = 96 ∧ min_font_size = 38 ∧
    (calculate_font_and_wrap_text measure text max_width max_height).2 =
      ((desc_range initial_font_size min_font_size).find? fun s =>
        decide ((wrap_text (measure s) text max_width).length * (s + 10) ≤
          max_height)).getD min_font_size ∧
    (calculate_font_and_wrap_text measure text max_width max_height).1 =
      wrap_text
        (measure (calculate_font_and_wrap_text measure text max_width
          max_height).2)
        text max_width ∧
    min_font_size ≤
      (calculate_font_and_wrap_text measure text max_width max_height).2 := by
  refine ⟨initial_font_size_eq, min_font_size_eq, ?_⟩
  unfold calculate_font_and_wrap_text
  rw [calc_font_loop_eq_find]
  cases hf : (desc_range initial_font_size min_font_size).find? fun s =>
      decide ((wrap_text (measure s) text max_width).length * (s + 10) ≤
        max_height) with
  | none => exact ⟨rfl, rfl, le_refl _⟩
  | some s =>
    have hmem : s ∈ desc_range initial_font_size min_font_size :=
      List.mem_of_find?_eq_some hf
    exact ⟨rfl, rfl, (mem_desc_range hmem).1⟩

/-- C4 witness: with a width oracle that reports width 0 for everything, the
search on text `"Hi"` accepts the initial size 96 (one wrapped line,
`1 * 106 ≤ 768`), and the returned size is ≥ 38. -/
theorem font_size_search_correct_witness :
    min_font_size ≤
      (calculate_font_and_wrap_text (fun _ _ => 0) ['H','i'] 864 768).2 :=
  (font_size_search_correct (fun _ _ => 0) ['H','i'] 864 768).2.2.2.2

/-- Joining a concatenation of two non-empty word lists inserts one space
between the two joins. -/
theorem join_words_append (xs ys : List (List Char)) (hx : xs ≠ [])
    (hy : ys ≠ []) :
    join_words (xs ++ ys) = join_words xs ++ ' ' :: join_words ys := by
  induction xs with
  | nil => exact absurd rfl hx
  | cons x xs ih =>
    cases xs with
    | nil =>
      cases ys with
      | nil => exact absurd rfl hy
      | cons y ys => rfl
    | cons x' xs' =>
      have h := ih (by simp)
      show x ++ ' ' :: join_words ((x' :: xs') ++ ys) =
        (x ++ ' ' :: join_words (x' :: xs')) ++ ' ' :: join_words ys
      rw [h]
      simp

/-- The join of a non-empty group of non-empty words is non-empty. -/
theorem join_words_ne_nil (g : List (List Char)) (hg : g ≠ [])
    (hw : ∀ w ∈ g, w ≠ []) : join_words g ≠ [] := by
  cases g with
  | nil => exact absurd rfl hg
  | cons w ws =>
    cases ws with
    | nil => exact hw w (by simp)
    | cons w' ws' =>
      simp only [join_words]
      simp

/-- Joining already-joined groups equals joining the flattened word list,
when every group is non-empty. -/
theorem join_words_map_flatten (groups : List (List (List Char)))
    (h : ∀ g ∈ groups, g ≠ []) :
    join_words (groups.map join_words) = join_words groups.flatten := by
  induction groups with
  | nil => rfl
  | cons g gs ih =>
    cases gs with
    | nil => simp [join_words]
    | cons g' gs' =>
      have hflat : (g' :: gs').flatten ≠ [] := by
        have hg' : g' ≠ [] := h g' (by simp)
        simp only [List.flatten_cons]
        intro hc
        exact hg' (List.append_eq_nil.1 hc).1
      have hg : g ≠ [] := h g (by simp)
      have hih := ih (fun x hx => h x (by simp [hx]))
      calc join_words ((g :: g' :: gs').map join_words)
          = join_words g ++ ' ' :: join_words ((g' :: gs').map join_words) := by
            simp only [List.map_cons, join_words]
        _ = join_words g ++ ' ' :: join_words (g' :: gs').flatten := by rw [hih]
        _ = join_words (g ++ (g' :: gs').flatten) :=
            (join_words_append g (g' :: gs').flatten hg hflat).symm
        _ = join_words (g :: g' :: gs').flatten := by simp

/-- Every word produced by the Python-style whitespace split is non-empty
and free of whitespace characters (given the same of the accumulator). -/
theorem py_split_aux_good (l : List Char) :
    ∀ acc, (∀ c ∈ acc, c.isWhitespace = false) →
      ∀ w ∈ py_split_aux l acc, w ≠ [] ∧ ∀ c ∈ w, c.isWhitespace = false := by
  induction l with
  | nil =>
    intro acc hacc w hw
    rw [py_split_aux] at hw
    split_ifs at hw with h
    · simp at hw
    · simp only [List.mem_singleton] at hw
      subst hw
      exact ⟨by simpa using h, fun c hc => hacc c (List.mem_reverse.1 hc)⟩
  | cons c cs ih =>
    intro acc hacc w hw
    rw [py_split_aux] at hw
    split_ifs at hw with h1 h2
    · exact ih [] (by simp) w hw
    · rcases List.mem_cons.1 hw with rfl | hw'
      · exact ⟨by simpa using h2, fun c' hc' => hacc c' (List.mem_reverse.1 hc')⟩
      · exact ih [] (by simp) w hw'
    · refine ih (c :: acc) ?_ w hw
      intro c' hc'
      rcases List.mem_cons.1 hc' with rfl | hc''
      · simpa using h1
      · exact hacc c' hc''

/-- The words of `py_split text` are non-empty and whitespace-free. -/
theorem py_split_good (text : List Char) :
    ∀ w ∈ py_split text, w ≠ [] ∧ ∀ c ∈ w, c.isWhitespace = false :=
  py_split_aux_good text [] (by simp)

/-- Feeding a whitespace-free word into the split accumulates it whole. -/
theorem py_split_aux_word (w : List Char)
    (hw : ∀ c ∈ w, c.isWhitespace = false) :
    ∀ (l acc : List Char),
      py_split_aux (w ++ l) acc = py_split_aux l (w.reverse ++ acc) := by
  induction w with
  | nil => intro l acc; simp
  | cons c cs ih =>
    intro l acc
    have hc : c.isWhitespace = false := hw c (by simp)
    rw [List.cons_append, py_split_aux, hc]
    simp only [Bool.false_eq_true, if_false]
    rw [ih (fun c' hc' => hw c' (by simp [hc'])) l (c :: acc)]
    congr 1
    simp

/-- A space flushes a non-empty accumulator as a finished word. -/
theorem py_split_aux_sep (l acc : List Char) (hacc : acc ≠ []) :
    py_split_aux (' ' :: l) acc = acc.reverse :: py_split_aux l [] := by
  rw [py_split_aux]
  have hsp : (' ' : Char).isWhitespace = true := rfl
  rw [hsp]
  simp [hacc]

/-- Splitting the space-join of non-empty whitespace-free words recovers the
word list. -/
theorem py_split_join (ws : List (List Char))
    (h : ∀ w ∈ ws, w ≠ [] ∧ ∀ c ∈ w, c.isWhitespace = false) :
    py_split (join_words ws) = ws := by
  induction ws with
  | nil => rfl
  | cons w ws ih =>
    have hw := h w (by simp)
    cases ws with
    | nil =>
      show py_split_aux (join_words [w]) [] = [w]
      have : join_words [w] = w ++ [] := by simp [join_words]
      rw [this, py_split_aux_word w hw.2 [] []]
      rw [py_split_aux]
      rw [if_neg (by simpa using hw.1)]
      simp
    | cons w' ws' =>
      show py_split_aux (join_words (w :: w' :: ws')) [] = w :: w' :: ws'
      have hj : join_words (w :: w' :: ws') =
          w ++ ' ' :: join_words (w' :: ws') := rfl
      rw [hj, py_split_aux_word w hw.2, List.append_nil]
      rw [py_split_aux_sep _ _ (by simpa using hw.1)]
      rw [List.reverse_reverse]
      exact congrArg (w :: ·) (ih (fun x hx => h x (by simp [hx])))

/-- The greedy wrap loop partitions `cur ++ ws`: flattening the produced
groups gives back all words in order. -/
theorem wrap_text_aux_flatten (measure : List Char → ℕ) (maxw : ℕ) :
    ∀ (ws cur : List (List Char)),
      (wrap_text_aux measure maxw ws cur).flatten = cur ++ ws := by
  intro ws
  induction ws with
  | nil =>
    intro cur
    rw [wrap_text_aux]
    split_ifs with h
    · simp [h]
    · simp
  | cons w ws ih =>
    intro cur
    rw [wrap_text_aux]
    split_ifs with h1 h2
    · rw [ih]
      simp
    · rw [ih]
      simp [h2]
    · simp only [List.flatten_cons, ih]
      simp

/-- Every group the greedy wrap emits is non-empty, and its words come from
`cur` or the input words. -/
theorem wrap_text_aux_groups (measure : List Char → ℕ) (maxw : ℕ) :
    ∀ (ws cur : List (List Char)), ∀ g ∈ wrap_text_aux measure maxw ws cur,
      g ≠ [] ∧ ∀ w ∈ g, w ∈ cur ∨ w ∈ ws := by
  intro ws
  induction ws with
  | nil =>
    intro cur g hg
    rw [wrap_text_aux] at hg
    split_ifs at hg with h
    · simp at hg
    · simp only [List.mem_singleton] at hg
      subst hg
      exact ⟨h, fun w hw => Or.inl hw⟩
  | cons w ws ih =>
    intro cur g hg
    rw [wrap_text_aux] at hg
    split_ifs at hg with h1 h2
    · obtain ⟨hne, hmem⟩ := ih (cur ++ [w]) g hg
      refine ⟨hne, fun x hx => ?_⟩
      rcases hmem x hx with hx' | hx'
      · rcases List.mem_append.1 hx' with hc | hc
        · exact Or.inl hc
        · simp only [List.mem_singleton] at hc
          subst hc
          exact Or.inr (by simp)
      · exact Or.inr (by simp [hx'])
    · obtain ⟨hne, hmem⟩ := ih [w] g hg
      refine ⟨hne, fun x hx => ?_⟩
      rcases hmem x hx with hx' | hx'
      · simp only [List.mem_singleton] at hx'
        subst hx'
        exact Or.inr (by simp)
      · exact Or.inr (by simp [hx'])
    · rcases List.mem_cons.1 hg with rfl | hg'
      · exact ⟨h2, fun x hx => Or.inl hx⟩
      · obtain ⟨hne, hmem⟩ := ih [w] g hg'
        refine ⟨hne, fun x hx => ?_⟩
        rcases hmem x hx with hx' | hx'
        · simp only [List.mem_singleton] at hx'
          subst hx'
          exact Or.inr (by simp)
        · exact Or.inr (by simp [hx'])

/-- C9: `_wrap_text` preserves the words of its input — splitting the
space-join of the returned lines yields exactly the input's word sequence —
and every returned line is non-empty. -/
theorem wrap_text_preserves_words (measure : List Char → ℕ)
    (text : List Char) (max_width : ℕ) :
    py_split (join_words (wrap_text measure text max_width)) =
      py_split text ∧
    ∀ line ∈ wrap_text measure text max_width, line ≠ [] := by
  have hgood := py_split_good text
  have hflat : (wrap_text_aux measure max_width (py_split text) []).flatten =
      py_split text := by
    simpa using wrap_text_aux_flatten measure max_width (py_split text) []
  have hgroups := wrap_text_aux_groups measure max_width (py_split text) []
  have hgne : ∀ g ∈ wrap_text_aux measure max_width (py_split text) [],
      g ≠ [] := fun g hg => (hgroups g hg).1
  have hgw : ∀ g ∈ wrap_text_aux measure max_width (py_split text) [],
      ∀ w ∈ g, w ∈ py_split text := by
    intro g hg w hw
    rcases (hgroups g hg).2 w hw with hc | hc
    · simp at hc
    · exact hc
  constructor
  · rw [wrap_text, join_words_map_flatten _ hgne, hflat]
    exact py_split_join _ hgood
  · intro line hline
    rw [wrap_text] at hline
    obtain ⟨g, hg, rfl⟩ := List.mem_map.1 hline
    exact join_words_ne_nil g (hgne g hg)
      (fun w hw => (hgood w (hgw g hg w hw)).1)

/-- C9 witness: the theorem applied to a concrete text and oracle — wrapping
`"hi yo"` at width 5 under a zero-width oracle keeps the two words. -/
theorem wrap_text_preserves_words_witness :
    py_split (join_words (wrap_text (fun _ => 0) ['h','i',' ','y','o'] 5)) =
      py_split ['h','i',' ','y','o'] :=
  (wrap_text_preserves_words (fun _ => 0) ['h','i',' ','y','o'] 5).1

/-- Evaluation: `int(self.width * 0.8) = 864` (line 200). -/
theorem max_text_width_eq : (⌊(width : ℚ) * (8/10)⌋).toNat = 864 := by
  rw [width]
  norm_num
  rfl

/-- Evaluation: `int(self.height * 0.4) = 768` (line 201). -/
theorem max_text_height_eq : (⌊(height : ℚ) * (4/10)⌋).toNat = 768 := by
  rw [height]
  norm_num
  rfl

/-- Evaluation: `int(self.height * 0.7) = 1344` in the exact-rational model (line 216). -/
theorem y_start_eq : y_start = 1344 := by
  rw [y_start, height]
  norm_num

/-- C7 counterexample: with caption `{0, 2, "Hi"}` active at `t = 1`,
`_add_text_overlay` returns the very frame object it was handed (object 0),
and that object's state has changed — so it neither returns a new frame nor
leaves the caller-visible input frame unmodified. -/
theorem caption_renderer_mutates_counterexample :
    (add_text_overlay (fun _ _ => 0) (fun _ => ([] : Frame)) 0
        [⟨0, 2, ['H','i']⟩] 1).2 = 0 ∧
    (add_text_overlay (fun _ _ => 0) (fun _ => ([] : Frame)) 0
        [⟨0, 2, ['H','i']⟩] 1).1 0 ≠ ([] : Frame) := by
  have hfind : find_current_segment [⟨0, 2, ['H','i']⟩] 1 =
      some ⟨0, 2, ['H','i']⟩ := by
    rw [find_current_segment, List.find?_cons_of_pos]
    rw [segment_active]
    norm_num
  have halpha : fade_alpha255 ⟨0, 2, ['H','i']⟩ 1 = 255 := by
    rw [fade_alpha255]
    norm_num [fade_envelope]
  have hdesc : desc_range initial_font_size min_font_size =
      desc_range 96 38 := by
    rw [initial_font_size_eq, min_font_size_eq]
  have hcalc : calculate_font_and_wrap_text (fun _ _ => 0) ['H','i'] 864 768 =
      ([['H','i']], 96) := by
    unfold calculate_font_and_wrap_text
    rw [hdesc]
    decide
  constructor
  · unfold add_text_overlay
    rw [hfind]
    rfl
  · unfold add_text_overlay
    rw [hfind]
    unfold draw_text_with_outline
    rw [max_text_width_eq, max_text_height_eq]
    dsimp only
    rw [halpha, hcalc, y_start_eq]
    decide

/-- C7 amended: `_add_text_overlay` draws in place: it returns the same
frame object it was given (`ImageDraw.Draw(frame)` binds to the argument,
no copy is taken), and any other image object in the heap is untouched.
The pipeline stays sound only because `_generate_frames_with_text` hands it
a freshly copied or freshly blended frame each time. -/
theorem caption_renderer_in_place (measure : ℕ → List Char → ℕ) (heap : Heap)
    (fid : ℕ) (segments : List TimingSegment) (t : ℚ) :
    (add_text_overlay measure heap fid segments t).2 = fid ∧
    ∀ n, n ≠ fid → (add_text_overlay measure heap fid segments t).1 n =
      heap n := by
  unfold add_text_overlay
  cases hf : find_current_segment segments t with
  | none => exact ⟨rfl, fun n _ => rfl⟩
  | some seg =>
    unfold draw_text_with_outline
    refine ⟨rfl, fun n hn => ?_⟩
    simp [hn]

/-- C7 amended witness: the in-place contract at a concrete call. -/
theorem caption_renderer_in_place_witness :
    (add_text_overlay (fun _ _ => 0) (fun _ => ([] : Frame)) 0
        [⟨0, 2, ['H','i']⟩] 1).2 = 0 ∧
    (add_text_overlay (fun _ _ => 0) (fun _ => ([] : Frame)) 0
        [⟨0, 2, ['H','i']⟩] 1).1 5 = ([] : Frame) :=
  ⟨(caption_renderer_in_place (fun _ _ => 0) (fun _ => ([] : Frame)) 0
      [⟨0, 2, ['H','i']⟩] 1).1,
    (caption_renderer_in_place (fun _ _ => 0) (fun _ => ([] : Frame)) 0
      [⟨0, 2, ['H','i']⟩] 1).2 5 (by norm_num)⟩

/-- C8: for every outcome of frame generation and muxing and whether or not
`rmtree` fails, cleanup is attempted on every exit path; the run's outcome
is exactly the primary outcome (generation's error, else muxing's outcome);
and a cleanup failure never changes the outcome. -/
theorem cleanup_always_runs (genR muxR : Except String Unit)
    (rmtree_fails : Bool) :
    RenderEv.rmtree ∈ (create_video_with_timed_text genR muxR rmtree_fails).1 ∧
    (create_video_with_timed_text genR muxR rmtree_fails).2 =
      (match genR with | .error e => .error e | .ok _ => muxR) ∧
    (create_video_with_timed_text genR muxR true).2 =
      (create_video_with_timed_text genR muxR false).2 := by
  cases genR with
  | error e =>
    refine ⟨?_, rfl, rfl⟩
    cases rmtree_fails <;> simp [create_video_with_timed_text, cleanup_temp_files]
  | ok u =>
    cases u
    cases muxR with
    | error e =>
      refine ⟨?_, rfl, rfl⟩
      cases rmtree_fails <;>
        simp [create_video_with_timed_text, cleanup_temp_files]
    | ok u' =>
      cases u'
      refine ⟨?_, rfl, rfl⟩
      cases rmtree_fails <;>
        simp [create_video_with_timed_text, cleanup_temp_files]

/-- C8 witness: the contract at one concrete run (muxing fails, cleanup
also fails): cleanup was attempted and the muxing error is the outcome. -/
theorem cleanup_always_runs_witness :
    RenderEv.rmtree ∈
      (create_video_with_timed_text (.ok ()) (.error "ffmpeg") true).1 ∧
    (create_video_with_timed_text (.ok ()) (.error "ffmpeg") true).2 =
      .error "ffmpeg" :=
  ⟨(cleanup_always_runs (.ok ()) (.error "ffmpeg") true).1,
    (cleanup_always_runs (.ok ()) (.error "ffmpeg") true).2.1⟩

/-- Lemma: `foldl max` is an upper bound of seed and elements and is attained. -/
theorem foldl_max_spec (l : List ℚ) :
    ∀ a : ℚ, a ≤ l.foldl max a ∧ (∀ x ∈ l, x ≤ l.foldl max a) ∧
      (l.foldl max a = a ∨ l.foldl max a ∈ l) := by
  induction l with
  | nil => exact fun a => ⟨le_refl a, by simp, Or.inl rfl⟩
  | cons x xs ih =>
    intro a
    obtain ⟨h1, h2, h3⟩ := ih (max a x)
    refine ⟨le_trans (le_max_left a x) h1, ?_, ?_⟩
    · intro y hy
      rcases List.mem_cons.1 hy with rfl | hy'
      · exact le_trans (le_max_right a y) h1
      · exact h2 y hy'
    · rcases h3 with heq | hmem
      · rcases max_choice a x with hc | hc
        · exact Or.inl (by rw [List.foldl_cons, heq, hc])
        · refine Or.inr ?_
          rw [List.foldl_cons, heq, hc]
          exact List.mem_cons_self x xs
      · exact Or.inr (List.mem_cons_of_mem x hmem)

/-- A segment accepted by `validate_segment` has all three keys and
`start < end`. -/
theorem validate_segment_ok (i : ℕ) (seg : RawSegment)
    (h : validate_segment i seg = .ok ()) :
    seg.start ≠ none ∧ seg.stop ≠ none ∧ seg.text ≠ none ∧
    ∀ s e, seg.start = some s → seg.stop = some e → s < e := by
  unfold validate_segment at h
  cases hs : seg.start with
  | none => rw [hs] at h; exact absurd h (by simp)
  | some s =>
    rw [hs] at h
    cases he : seg.stop with
    | none => rw [he] at h; exact absurd h (by simp)
    | some e =>
      rw [he] at h
      cases ht : seg.text with
      | none => rw [ht] at h; exact absurd h (by simp)
      | some tx =>
        rw [ht] at h
        dsimp only at h
        split_ifs at h with hge
        refine ⟨by simp [hs], by simp [he], by simp [ht], ?_⟩
        intro s' e' hs' he'
        obtain rfl : s = s' := by injection hs'
        obtain rfl : e = e' := by injection he'
        exact lt_of_not_ge hge

/-- Every segment of a list accepted by the validation loop is accepted by
the per-segment check. -/
theorem validate_segments_ok :
    ∀ (i : ℕ) (l : List RawSegment), validate_segments i l = .ok () →
      ∀ seg ∈ l, seg.start ≠ none ∧ seg.stop ≠ none ∧ seg.text ≠ none ∧
        ∀ s e, seg.start = some s → seg.stop = some e → s < e := by
  intro i l
  induction l generalizing i with
  | nil => intro _ seg hseg; simp at hseg
  | cons a as ih =>
    intro h seg hseg
    unfold validate_segments at h
    cases hv : validate_segment i a with
    | error e => rw [hv] at h; exact absurd h (by simp)
    | ok u =>
      cases u
      rw [hv] at h
      rcases List.mem_cons.1 hseg with rfl | hseg'
      · exact validate_segment_ok i seg hv
      · exact ih (i + 1) h seg hseg'

/-- What acceptance by `_validate_inputs` guarantees. -/
theorem validate_ok_implies (resolvable : String → Bool)
    (images : List String) (audio : String) (timing : List RawSegment)
    (h : validate_inputs resolvable images audio timing = .ok ()) :
    images.length = 3 ∧ (∀ p ∈ images, resolvable p = true) ∧
    resolvable audio = true ∧ timing ≠ [] ∧
    ∀ seg ∈ timing, seg.start ≠ none ∧ seg.stop ≠ none ∧ seg.text ≠ none ∧
      ∀ s e, seg.start = some s → seg.stop = some e → s < e := by
  unfold validate_inputs at h
  by_cases h3 : images.length ≠ 3
  · rw [if_pos h3] at h
    exact absurd h (by simp)
  · rw [if_neg h3] at h
    cases hfind : images.find? (fun p => !resolvable p) with
    | some p => rw [hfind] at h; exact absurd h (by simp)
    | none =>
      rw [hfind] at h
      dsimp only at h
      by_cases haud : (!resolvable audio) = true
      · rw [if_pos haud] at h
        exact absurd h (by simp)
      · rw [if_neg haud] at h
        by_cases hemp : timing.isEmpty
        · rw [if_pos hemp] at h
          exact absurd h (by simp)
        · rw [if_neg hemp] at h
          refine ⟨by omega, ?_, ?_, ?_, validate_segments_ok 0 timing h⟩
          · intro p hp
            have := List.find?_eq_none.1 hfind p hp
            simpa using this
          · simpa using haud
          · simpa using hemp

/-- C6: any violation — wrong image count, an unresolvable image or audio
asset, an empty caption list, or a caption segment lacking `start`, `end`
or `text` or with `start ≥ end` — makes `_validate_inputs` reject, and
`create_video` then surfaces exactly that validation error before the
render stage is consulted (the same error for every possible render
behaviour, so no rendering work happens and no output is produced). -/
theorem validation_rejects (resolvable : String → Bool)
    (images : List String) (audio : String) (timing : List RawSegment)
    (hbad : images.length ≠ 3 ∨ (∃ p ∈ images, resolvable p = false) ∨
      resolvable audio = false ∨ timing = [] ∨
      (∃ seg ∈ timing, seg.start = none ∨ seg.stop = none ∨
        seg.text = none ∨ ∃ s e, seg.start = some s ∧ seg.stop = some e ∧
          s ≥ e)) :
    ∃ e, validate_inputs resolvable images audio timing = .error e ∧
      ∀ (render : ℚ → Except String String) (d? : Option ℚ),
        create_video resolvable render images audio timing d? = .error e := by
  have hne : validate_inputs resolvable images audio timing ≠ .ok () := by
    intro hok
    obtain ⟨h3, himg, haud, hnemp, hsegs⟩ :=
      validate_ok_implies resolvable images audio timing hok
    rcases hbad with h | h | h | h | h
    · exact h h3
    · obtain ⟨p, hp, hfp⟩ := h
      rw [himg p hp] at hfp
      cases hfp
    · rw [haud] at h
      cases h
    · exact hnemp h
    · obtain ⟨seg, hseg, hviol⟩ := h
      obtain ⟨hs, he, ht, hlt⟩ := hsegs seg hseg
      rcases hviol with h' | h' | h' | ⟨s, e, hs', he', hge⟩
      · exact hs h'
      · exact he h'
      · exact ht h'
      · exact absurd (hlt s e hs' he') (not_lt.2 hge)
  cases hval : validate_inputs resolvable images audio timing with
  | ok u => cases u; exact absurd hval hne
  | error e =>
    refine ⟨e, rfl, ?_⟩
    intro render d?
    unfold create_video
    rw [hval]

/-- C6 witness: an empty caption list with three resolvable images is
rejected, and `create_video` returns that error whatever the renderer
would have done. -/
theorem validation_rejects_witness :
    ∃ e, validate_inputs (fun _ => true) ["a", "b", "c"] "m" [] = .error e ∧
      ∀ (render : ℚ → Except String String) (d? : Option ℚ),
        create_video (fun _ => true) render ["a", "b", "c"] "m" [] d? =
          .error e :=
  validation_rejects (fun _ => true) ["a", "b", "c"] "m" []
    (Or.inr (Or.inr (Or.inr (Or.inl rfl))))

/-- C5 counterexample: for a request with no duration supplied, an audio
asset whose own duration is 7 seconds, and captions whose maximum `end` is
2.5, the spec's derivation rule yields 7 but the code derives 2.5 — the
code computes `max(seg["end"])` directly from the timing data and never
consults the audio asset.  The rendered duration reported by `create_video`
is 2.5. -/
theorem duration_ignores_audio_counterexample :
    duration_from_timing [⟨some 0, some (5/2), some ['x']⟩] = 5/2 ∧
    spec_derived_duration (some 7) [5/2] = 7 ∧
    duration_from_timing [⟨some 0, some (5/2), some ['x']⟩] ≠
      spec_derived_duration (some 7) [5/2] ∧
    create_video (fun _ => true) (fun _ => .ok "out.mp4") ["a", "b", "c"]
      "audio.mp3" [⟨some 0, some (5/2), some ['x']⟩] none =
      .ok ⟨"success", some "out.mp4", none, some (5/2)⟩ := by
  have hval : validate_inputs (fun _ => true) ["a", "b", "c"] "audio.mp3"
      [⟨some 0, some (5/2), some ['x']⟩] = .ok () := by
    simp [validate_inputs, validate_segments, validate_segment, List.find?]
    norm_num
  refine ⟨rfl, rfl, by norm_num [duration_from_timing, spec_derived_duration], ?_⟩
  unfold create_video
  rw [hval]
  rfl

/-- C5 amended: when no duration is supplied, the duration used for the
render is the maximum caption `end` of the timing data (10.0 for an empty
list, unreachable after validation); the audio asset's own duration is
never consulted: after successful validation the renderer is always invoked
at `duration_from_timing timing`, whatever the audio argument. -/
theorem duration_from_timing_correct (resolvable : String → Bool)
    (render : ℚ → Except String String) (images : List String)
    (audio : String) (timing : List RawSegment)
    (hok : validate_inputs resolvable images audio timing = .ok ()) :
    duration_from_timing [] = 10 ∧
    (timing ≠ [] →
      (∃ seg ∈ timing,
        duration_from_timing timing = seg.stop.getD 0) ∧
      ∀ seg ∈ timing, seg.stop.getD 0 ≤ duration_from_timing timing) ∧
    create_video resolvable render images audio timing none =
      (match render (duration_from_timing timing) with
        | .ok p => .ok ⟨"success", some p, none,
            some (duration_from_timing timing)⟩
        | .error e => .ok ⟨"error", none, some e, none⟩) := by
  refine ⟨rfl, ?_, ?_⟩
  · intro hne
    cases timing with
    | nil => exact absurd rfl hne
    | cons seg rest =>
      obtain ⟨h1, h2, h3⟩ :=
        foldl_max_spec (rest.map fun s => s.stop.getD 0) (seg.stop.getD 0)
      constructor
      · rcases h3 with heq | hmem
        · exact ⟨seg, by simp, heq⟩
        · obtain ⟨s', hs', heq'⟩ := List.mem_map.1 hmem
          exact ⟨s', by simp [hs'], heq'.symm⟩
      · intro s' hs'
        rcases List.mem_cons.1 hs' with rfl | hmem
        · exact h1
        · exact h2 _ (List.mem_map_of_mem _ hmem)
  · unfold create_video
    rw [hok]
    rfl

/-- C5 amended witness: at a concrete validated request with no duration
supplied, the render runs at the maximum caption end `5/2`. -/
theorem duration_from_timing_correct_witness :
    validate_inputs (fun _ => true) ["a", "b", "c"] "audio.mp3"
      [⟨some 0, some (5/2), some ['x']⟩] = .ok () ∧
    create_video (fun _ => true) (fun _ => .ok "out.mp4") ["a", "b", "c"]
      "audio.mp3" [⟨some 0, some (5/2), some ['x']⟩] none =
      (match (fun _ => Except.ok "out.mp4" :
          ℚ → Except String String)
          (duration_from_timing [⟨some 0, some (5/2), some ['x']⟩]) with
        | .ok p => .ok ⟨"success", some p, none,
            some (duration_from_timing [⟨some 0, some (5/2), some ['x']⟩])⟩
        | .error e => .ok ⟨"error", none, some e, none⟩) := by
  have hval : validate_inputs (fun _ => true) ["a", "b", "c"] "audio.mp3"
      [⟨some 0, some (5/2), some ['x']⟩] = .ok () := by
    simp [validate_inputs, validate_segments, validate_segment, List.find?]
    norm_num
  exact ⟨hval,
    (duration_from_timing_correct (fun _ => true) (fun _ => .ok "out.mp4")
      ["a", "b", "c"] "audio.mp3" [⟨some 0, some (5/2), some ['x']⟩]
      hval).2.2⟩

/-- C10: once validation has accepted the inputs, `create_video` never
raises: a render-stage failure is caught and returned as the dict
`{status: "error", error: message, video_path: None}`, and a successful
render returns `{status: "success", video_path: path, duration}`; a
validation failure, by contrast, is raised to the caller (surfaced as
`.error`, cf. the validation theorem). -/
theorem create_video_error_handling (resolvable : String → Bool)
    (render : ℚ → Except String String) (images : List String)
    (audio : String) (timing : List RawSegment) (d? : Option ℚ) :
    (∀ e, validate_inputs resolvable images audio timing = .error e →
      create_video resolvable render images audio timing d? = .error e) ∧
    (validate_inputs resolvable images audio timing = .ok () →
      (∀ e, render (d?.getD (duration_from_timing timing)) = .error e →
        create_video resolvable render images audio timing d? =
          .ok ⟨"error", none, some e, none⟩) ∧
      (∀ p, render (d?.getD (duration_from_timing timing)) = .ok p →
        create_video resolvable render images audio timing d? =
          .ok ⟨"success", some p, none,
            some (d?.getD (duration_from_timing timing))⟩)) := by
  constructor
  · intro e hve
    unfold create_video
    rw [hve]
  · intro hok
    constructor
    · intro e hre
      unfold create_video
      rw [hok]
      simp only
      rw [hre]
    · intro p hrp
      unfold create_video
      rw [hok]
      simp only
      rw [hrp]

/-- C10 witness: on a concrete validated request, a raising renderer yields
the error dict and a succeeding renderer the success dict. -/
theorem create_video_error_handling_witness :
    validate_inputs (fun _ => true) ["a", "b", "c"] "m"
      [⟨some 0, some 1, some ['x']⟩] = .ok () ∧
    create_video (fun _ => true) (fun _ => .error "boom") ["a", "b", "c"]
      "m" [⟨some 0, some 1, some ['x']⟩] none =
      .ok ⟨"error", none, some "boom", none⟩ ∧
    create_video (fun _ => true) (fun _ => .ok "v.mp4") ["a", "b", "c"]
      "m" [⟨some 0, some 1, some ['x']⟩] none =
      .ok ⟨"success", some "v.mp4", none,
        some (duration_from_timing [⟨some 0, some 1, some ['x']⟩])⟩ := by
  have hval : validate_inputs (fun _ => true) ["a", "b", "c"] "m"
      [⟨some 0, some 1, some ['x']⟩] = .ok () := by
    simp [validate_inputs, validate_segments, validate_segment, List.find?]
    norm_num
  exact ⟨hval,
    ((create_video_error_handling (fun _ => true) (fun _ => .error "boom")
      ["a", "b", "c"] "m" [⟨some 0, some 1, some ['x']⟩] none).2 hval).1
      "boom" rfl,
    ((create_video_error_handling (fun _ => true) (fun _ => .ok "v.mp4")
      ["a", "b", "c"] "m" [⟨some 0, some 1, some ['x']⟩] none).2 hval).2
      "v.mp4" rfl⟩

/-- C1 witness: the spec scenario `duration = 9.0`, `t = 2.6`: the planner is
in segment 0 (image 1), blends in image index 1 (image 2), and the blend
factor is `(2.6 - 2.5) / 0.5 = 0.2`. -/
theorem timeline_planner_correct_witness :
    (get_current_images 3 (13/5) ((9:ℚ) / 3)).2.2 =
      (pymod (13/5) ((9:ℚ) / 3) - ((9:ℚ) / 3 - transition_duration)) /
        transition_duration ∧
    get_current_images 3 (13/5) ((9:ℚ) / 3) = (0, some 1, 1/5) := by
  have hfloor : ⌊(13/5 : ℚ) / (9/3 : ℚ)⌋ = 0 := by norm_num
  constructor
  · refine ((timeline_planner_correct 9 (13/5) (by norm_num) (by norm_num)
      (by norm_num)).2.2.2.1 ?_).2
    constructor
    · simp only [get_current_images, hfloor]
      split_ifs <;> norm_num
    · rw [pymod, hfloor, transition_duration]
      norm_num
  · rw [get_current_images]
    simp only [pymod, hfloor, transition_duration]
    norm_num

end SleepingBeauty
